import Mathlib

/-!
Verification of the pomodoro productivity tracker (task registry, record
store, statistics engine, timer state machine) against its specification.

The embedding follows the Python source:
* `src/task_manager.py` — `Task`, `add_task`, `delete_task`,
  `increment_pomodoro`, `get_task_stats`, filters.
* `src/stats.py` — `SessionRec`, `get_total_focus_time`, `get_streak`.
* `src/timer.py` — `TimerState`, `start_pomodoro_step` (one pass of
  `start_pomodoro`, with the countdown's outcome made an explicit input).
* The record store (`_load_tasks`/`_save_tasks`, `_load_sessions`/
  `_save_sessions`) treats the external `json` text codec as faithful: a
  file's content is modelled as either the parsed record list or an
  unparsable blob, and the filesystem as a map from path to optional
  content.

Timestamps are abstracted to integers: `created_at`/`completed_at` are
abstract instants, and a session's `timestamp` is the calendar day of the
ISO timestamp (the statistics code always reduces a timestamp to its
`.date()` before use; the `datetime` library is external).
-/

namespace Pomodoro

/-- A task record, with the exact fields `TaskManager.add_task` creates:
id, name, priority, completed, created_at, completed_at, pomodoros_spent. -/
structure Task where
  id : Nat
  name : String
  priority : String
  completed : Bool
  created_at : Int
  completed_at : Option Int
  pomodoros_spent : Nat
deriving DecidableEq, Repr

/-- A session record, with the exact fields `PomodoroTimer.start_pomodoro`
writes: type, task, duration, completed, timestamp.  `timestamp` is the
calendar day (as an integer) of the ISO timestamp. -/
structure SessionRec where
  type : String
  task : String
  duration : Nat
  completed : Bool
  timestamp : Int
deriving DecidableEq, Repr

/-! ## Record store (`_load_tasks` / `_save_tasks` and the session twins)

`json.load` / `json.dump` are external; a file holds either a parsable
serialization of a record list or unparsable bytes.  `_load_tasks` returns
`[]` when the file is absent (`os.path.exists` false) and `[]` when opening
or parsing raises (the bare `except` branch); only a present, parsable file
yields its records. -/

/-- Content of a data file: a parsable serialization of records, or bytes
the `json` parser rejects. -/
inductive FileContent (α : Type) where
  | parsable (records : List α)
  | unparsable

/-- A filesystem: a path either has no file (`none`) or some content. -/
def FS (α : Type) := String → Option (FileContent α)

/-- `TaskManager._load_tasks`: absent file → `[]`; present but unparsable →
`[]` (the bare `except` returns `[]`); otherwise the parsed records. -/
def load_tasks (path : String) (fs : FS Task) : List Task :=
  match fs path with
  | none => []
  | some FileContent.unparsable => []
  | some (FileContent.parsable ts) => ts

/-- `TaskManager._save_tasks`: writes the serialized task list at the path
(the success case; a write failure is reported and leaves the file as is). -/
def save_tasks (path : String) (tasks : List Task) (fs : FS Task) : FS Task :=
  fun p => if p = path then some (FileContent.parsable tasks) else fs p

/-- `Stats._load_sessions`: textually the same recovery logic as
`_load_tasks`, over session records. -/
def load_sessions (path : String) (fs : FS SessionRec) : List SessionRec :=
  match fs path with
  | none => []
  | some FileContent.unparsable => []
  | some (FileContent.parsable ss) => ss

/-- `Stats._save_sessions`: writes the serialized session list at the path. -/
def save_sessions (path : String) (sessions : List SessionRec) (fs : FS SessionRec) :
    FS SessionRec :=
  fun p => if p = path then some (FileContent.parsable sessions) else fs p

/-! ## Task registry (`TaskManager`)

The registry's observable state is its in-memory task list (`self.tasks`);
every mutator persists that same list via `_save_tasks` before returning,
which the record-store model covers separately. -/

/-- `TaskManager.add_task`: builds the new task dict with
`id = len(self.tasks) + 1` and the given name/priority, appends it, and
returns it.  `now` stands for `datetime.now()`. -/
def add_task (tasks : List Task) (task_name : String) (priority : String) (now : Int) :
    Task × List Task :=
  let task : Task :=
    { id := tasks.length + 1
      name := task_name
      priority := priority
      completed := false
      created_at := now
      completed_at := none
      pomodoros_spent := 0 }
  (task, tasks ++ [task])

/-- `TaskManager.delete_task`: pops the task at `index` when
`0 <= index < len(self.tasks)`, else returns `None` and changes nothing. -/
def delete_task (tasks : List Task) (index : Nat) : Option Task × List Task :=
  if h : index < tasks.length then
    (some (tasks.get ⟨index, h⟩), tasks.eraseIdx index)
  else
    (none, tasks)

/-- `TaskManager.get_pending_tasks`: tasks with `completed` false. -/
def get_pending_tasks (tasks : List Task) : List Task :=
  tasks.filter (fun t => !t.completed)

/-- `TaskManager.get_completed_tasks`: tasks with `completed` true. -/
def get_completed_tasks (tasks : List Task) : List Task :=
  tasks.filter (fun t => t.completed)

/-- `TaskManager.increment_pomodoro`: scans `self.tasks` in order; the first
task whose `id` equals the argument task's `id` gets `pomodoros_spent + 1`
and the loop `break`s; no match leaves the list unchanged. -/
def increment_pomodoro (tasks : List Task) (task : Task) : List Task :=
  match tasks with
  | [] => []
  | t :: rest =>
    if t.id = task.id then
      { t with pomodoros_spent := t.pomodoros_spent + 1 } :: rest
    else
      t :: increment_pomodoro rest task

/-- Result record of `TaskManager.get_task_stats`.  `completion_rate` is a
Python float computed by true division; it is modelled as an exact
rational. -/
structure TaskStats where
  total : Nat
  pending : Nat
  completed : Nat
  completion_rate : ℚ
  total_pomodoros : Nat
deriving Repr

/-- `TaskManager.get_task_stats`: counts, the pomodoro total, and
`completed / total * 100` guarded by `total > 0` (else `0`). -/
def get_task_stats (tasks : List Task) : TaskStats :=
  let total := tasks.length
  let pending := (get_pending_tasks tasks).length
  let completed := (get_completed_tasks tasks).length
  let total_pomodoros := (tasks.map (fun t => t.pomodoros_spent)).sum
  { total := total
    pending := pending
    completed := completed
    completion_rate := if total > 0 then (completed : ℚ) / (total : ℚ) * 100 else 0
    total_pomodoros := total_pomodoros }

/-- Replaying a list of `add_task` calls (name, priority, creation time)
from a starting task list; used to state the id-assignment invariant for
deletion-free histories. -/
def addAll (tasks : List Task) (adds : List (String × String × Int)) : List Task :=
  adds.foldl (fun ts a => (add_task ts a.1 a.2.1 a.2.2).2) tasks

/-! ## Statistics engine (`Stats`) -/

/-- The filter both `get_pomodoro_count` and `get_total_focus_time` (and the
streak's date set) apply: `type == 'pomodoro' and completed`. -/
def completedPomodoro (s : SessionRec) : Bool :=
  s.type == "pomodoro" && s.completed

/-- `Stats.get_total_focus_time`: sums `duration` over completed pomodoros,
splits into `hours = total // 3600` and `minutes = (total % 3600) // 60`,
and renders `"{hours}h {minutes}m"` when `hours > 0`, else `"{minutes}m"`. -/
def get_total_focus_time (sessions : List SessionRec) : String :=
  let total_seconds := ((sessions.filter completedPomodoro).map
    (fun s => s.duration)).sum
  let hours := total_seconds / 3600
  let minutes := (total_seconds % 3600) / 60
  if hours > 0 then
    toString hours ++ "h " ++ toString minutes ++ "m"
  else
    toString minutes ++ "m"

/-- The set of calendar days carrying a completed pomodoro
(`dates = set()` built in `Stats.get_streak`); `dedup` models the set,
the order is normalised by the descending sort that follows. -/
def pomodoroDates (sessions : List SessionRec) : List Int :=
  ((sessions.filter completedPomodoro).map (fun s => s.timestamp)).dedup

/-- One descending-order insertion, for `sorted(dates, reverse=True)`. -/
def insertDesc (x : Int) : List Int → List Int
  | [] => [x]
  | y :: ys => if y ≤ x then x :: y :: ys else y :: insertDesc x ys

/-- `sorted(dates, reverse=True)`: sort into descending order. -/
def sortDesc (l : List Int) : List Int :=
  l.foldr insertDesc []

/-- The `for date in sorted_dates` loop of `Stats.get_streak`: while the
next date equals `current_date`, step one day back and bump `streak`;
any other date `break`s the loop (the `elif date == current_date: continue`
branch in the source is unreachable, its condition repeats the `if`). -/
def streakLoop (l : List Int) (current_date : Int) (streak : Nat) : Nat :=
  match l with
  | [] => streak
  | d :: rest =>
    if d = current_date then streakLoop rest (current_date - 1) (streak + 1)
    else streak

/-- `Stats.get_streak`: `0` on an empty log or an empty date set, else the
walk over the unique pomodoro days sorted descending, starting at today. -/
def get_streak (sessions : List SessionRec) (today : Int) : Nat :=
  if sessions = [] then 0
  else
    let dates := pomodoroDates sessions
    if dates = [] then 0
    else streakLoop (sortDesc dates) today 0

/-- Spec-side predicate: day `d` has at least one record with
`type='pomodoro'` and `completed=true`. -/
def hasPomOn (sessions : List SessionRec) (d : Int) : Bool :=
  sessions.any (fun s => s.type == "pomodoro" && s.completed && s.timestamp == d)

/-- Spec-side total of focus seconds: the sum of `duration` over exactly
the records with `type='pomodoro'` and `completed=true`. -/
def specFocusSeconds (sessions : List SessionRec) : Nat :=
  sessions.foldr
    (fun s acc => if s.type == "pomodoro" && s.completed then s.duration + acc else acc) 0

/-- Spec-side rendering: the total as hours and minutes, the hours segment
omitted when it is zero. -/
def specFocusFmt (totalSeconds : Nat) : String :=
  let tm := totalSeconds / 60
  if tm / 60 = 0 then toString (tm % 60) ++ "m"
  else toString (tm / 60) ++ "h " ++ toString (tm % 60) ++ "m"

/-! ## Timer state machine (`PomodoroTimer`)

`start_pomodoro` blocks on a countdown and on operator prompts; one pass of
it is embedded as a function of the explicit timer state, the registry and
log snapshots, and the outcome of the countdown (natural expiry, or the
`KeyboardInterrupt` handler with the operator's complete/discard answer).
The break, when selected, is recorded as `breakStarted`; `start_break`
itself writes no session record.  The source never calls
`TaskManager.increment_pomodoro` (the repository has no call site), so the
task list passes through every outcome unchanged. -/

/-- The mutable fields of `PomodoroTimer.__init__`. -/
structure TimerState where
  pomodoro_duration : Nat
  short_break_duration : Nat
  long_break_duration : Nat
  pomodoros_until_long_break : Nat
  current_pomodoros : Nat
deriving DecidableEq, Repr

/-- Defaults set in `PomodoroTimer.__init__`: 25/5/15 minutes, long break
every 4th pomodoro, zero pomodoros so far. -/
def initTimer : TimerState :=
  { pomodoro_duration := 25 * 60
    short_break_duration := 5 * 60
    long_break_duration := 15 * 60
    pomodoros_until_long_break := 4
    current_pomodoros := 0 }

/-- How one `start_pomodoro` countdown ends: natural expiry, or
`KeyboardInterrupt` with the operator answering `'y'` (complete) or
anything else (discard). -/
inductive RunOutcome where
  | finished
  | interruptComplete
  | interruptDiscard
deriving DecidableEq, Repr

/-- Which break `start_break` is invoked with. -/
inductive BreakKind where
  | short
  | long
deriving DecidableEq, Repr

/-- Observable result of one pass of `start_pomodoro`: timer state, session
log, task registry, and the break that was started (if any). -/
structure StepResult where
  timer : TimerState
  sessions : List SessionRec
  tasks : List Task
  breakStarted : Option BreakKind
deriving Repr

/-- The session dict `start_pomodoro` appends (both on natural expiry and on
a confirmed interruption): `type='pomodoro'`, the selected task's name or
`'General work'`, the configured `pomodoro_duration`, `completed=True`,
and the completion day. -/
def sessionRecordOf (st : TimerState) (task : Option Task) (now : Int) : SessionRec :=
  { type := "pomodoro"
    task := match task with
            | some t => t.name
            | none => "General work"
    duration := st.pomodoro_duration
    completed := true
    timestamp := now }

/-- One pass of `PomodoroTimer.start_pomodoro` (timer.py lines 86–154),
stopping before the recursive `start_pomodoro` re-entry:

* natural expiry: `current_pomodoros += 1`, append the record, select the
  break — long when the new count is divisible by
  `pomodoros_until_long_break`, else short — and start it;
* interrupt + `'y'`: `current_pomodoros += 1` and append the record,
  no break;
* interrupt + other: nothing changes.

The registry is returned unchanged in every case: no path of the source
calls `TaskManager.increment_pomodoro`. -/
def start_pomodoro_step (st : TimerState) (tasks : List Task)
    (sessions : List SessionRec) (task : Option Task) (outcome : RunOutcome)
    (now : Int) : StepResult :=
  match outcome with
  | RunOutcome.finished =>
    let st' := { st with current_pomodoros := st.current_pomodoros + 1 }
    let brk := if st'.current_pomodoros % st.pomodoros_until_long_break = 0
               then BreakKind.long else BreakKind.short
    { timer := st'
      sessions := sessions ++ [sessionRecordOf st task now]
      tasks := tasks
      breakStarted := some brk }
  | RunOutcome.interruptComplete =>
    let st' := { st with current_pomodoros := st.current_pomodoros + 1 }
    { timer := st'
      sessions := sessions ++ [sessionRecordOf st task now]
      tasks := tasks
      breakStarted := none }
  | RunOutcome.interruptDiscard =>
    { timer := st
      sessions := sessions
      tasks := tasks
      breakStarted := none }

/-! ## Concrete inputs used by witnesses and counterexamples -/

/-- A pending example task, as `add_task` would create it. -/
def exTask : Task :=
  { id := 1, name := "Write report", priority := "medium", completed := false,
    created_at := 0, completed_at := none, pomodoros_spent := 0 }

/-- A completed example task with a different id and some pomodoros spent. -/
def exTask2 : Task :=
  { id := 2, name := "Deep work", priority := "high", completed := true,
    created_at := 0, completed_at := some 0, pomodoros_spent := 5 }

/-- The history add "a", add "b", delete position 0, add "c": the final
`add_task` computes `id = len(tasks) + 1 = 2`, colliding with task "b". -/
def reuseHistory : List Task :=
  let s1 := (add_task [] "a" "medium" 0).2
  let s2 := (add_task s1 "b" "medium" 0).2
  let s3 := (delete_task s2 0).2
  (add_task s3 "c" "medium" 0).2

/-- The break selected on the natural completion that makes the session
count `n` (defaults, so `pomodoros_until_long_break = 4`). -/
def breakAfter (n : Nat) : Option BreakKind :=
  (start_pomodoro_step { initTimer with current_pomodoros := n - 1 } [] [] none
    RunOutcome.finished 0).breakStarted

/-- A session log with completed pomodoros on days 100, 99, 98 and 96 and a
gap on day 97; with today = 100 the streak is 3. -/
def exStreakLog : List SessionRec :=
  [{ type := "pomodoro", task := "Write report", duration := 1500,
     completed := true, timestamp := 100 },
   { type := "pomodoro", task := "Deep work", duration := 1500,
     completed := true, timestamp := 99 },
   { type := "short_break", task := "Deep work", duration := 300,
     completed := false, timestamp := 99 },
   { type := "pomodoro", task := "Deep work", duration := 900,
     completed := true, timestamp := 98 },
   { type := "pomodoro", task := "Write report", duration := 1500,
     completed := true, timestamp := 96 }]

/-- A log holding a record dated after the query day: a completed pomodoro
on day 101 and one on day 100, queried with today = 100. -/
def futureLog : List SessionRec :=
  [{ type := "pomodoro", task := "Write report", duration := 1500,
     completed := true, timestamp := 101 },
   { type := "pomodoro", task := "Write report", duration := 1500,
     completed := true, timestamp := 100 }]

/-! ## Theorems -/

/-- C7: saving a task list at a path and loading from that same path
returns the same tasks, every field identical (save then load is the
identity on task collections, the `json` text codec being external). -/
theorem save_load_roundtrip :
    ∀ (fs : FS Task) (path : String) (tasks : List Task),
      load_tasks path (save_tasks path tasks fs) = tasks := by
  intro fs path tasks
  simp [load_tasks, save_tasks]

/-- C4: for every path, `load` returns `[]` when the file is absent and
`[]` when the file exists but does not parse, never failing the caller;
only a present, parsable file returns its records — for the task
collection and the session log alike. -/
theorem load_missing_or_corrupt_spec :
    ∀ (fsT : FS Task) (fsS : FS SessionRec) (path : String),
      (fsT path = none → load_tasks path fsT = [])
      ∧ (fsT path = some FileContent.unparsable → load_tasks path fsT = [])
      ∧ (∀ ts, fsT path = some (FileContent.parsable ts) → load_tasks path fsT = ts)
      ∧ (fsS path = none → load_sessions path fsS = [])
      ∧ (fsS path = some FileContent.unparsable → load_sessions path fsS = [])
      ∧ (∀ ss, fsS path = some (FileContent.parsable ss) →
          load_sessions path fsS = ss) := by
  intro fsT fsS path
  refine ⟨fun h => ?_, fun h => ?_, fun ts h => ?_, fun h => ?_, fun h => ?_,
    fun ss h => ?_⟩ <;>
    simp [load_tasks, load_sessions, h]

/-- Witness for C4: all six branches at concrete filesystems and paths. -/
theorem load_missing_or_corrupt_witness :
    load_tasks "data/tasks.json" (fun _ => none) = []
    ∧ load_tasks "data/tasks.json" (fun _ => some FileContent.unparsable) = []
    ∧ load_tasks "data/tasks.json" (fun _ => some (FileContent.parsable [exTask]))
        = [exTask]
    ∧ load_sessions "data/sessions.json" (fun _ => none) = []
    ∧ load_sessions "data/sessions.json" (fun _ => some FileContent.unparsable) = []
    ∧ load_sessions "data/sessions.json" (fun _ => some (FileContent.parsable []))
        = [] :=
  ⟨(load_missing_or_corrupt_spec (fun _ => none) (fun _ => none) "data/tasks.json").1
      rfl,
   (load_missing_or_corrupt_spec (fun _ => some FileContent.unparsable)
      (fun _ => none) "data/tasks.json").2.1 rfl,
   (load_missing_or_corrupt_spec (fun _ => some (FileContent.parsable [exTask]))
      (fun _ => none) "data/tasks.json").2.2.1 [exTask] rfl,
   (load_missing_or_corrupt_spec (fun _ => none) (fun _ => none)
      "data/sessions.json").2.2.2.1 rfl,
   (load_missing_or_corrupt_spec (fun _ => none)
      (fun _ => some FileContent.unparsable) "data/sessions.json").2.2.2.2.1 rfl,
   (load_missing_or_corrupt_spec (fun _ => none)
      (fun _ => some (FileContent.parsable [])) "data/sessions.json").2.2.2.2.2 []
      rfl⟩

/-- C8: an interrupted pomodoro whose operator answers discard changes
nothing: no session record is appended, `current_pomodoros` does not
increment, the task registry is untouched, and no break is started. -/
theorem interrupt_discard_noop :
    ∀ (st : TimerState) (tasks : List Task) (sessions : List SessionRec)
      (task : Option Task) (now : Int),
      start_pomodoro_step st tasks sessions task RunOutcome.interruptDiscard now
        = { timer := st, sessions := sessions, tasks := tasks,
            breakStarted := none } :=
  fun _ _ _ _ _ => rfl

/-- C2: on natural completion the long break is selected exactly when the
incremented pomodoro count is divisible by `pomodoros_until_long_break`;
with the default of 4, counts 4, 8, 12 select the long break and counts
1, 2, 3, 5, 6, 7 the short break. -/
theorem break_selection_spec :
    (∀ (st : TimerState) (tasks : List Task) (sessions : List SessionRec)
        (task : Option Task) (now : Int),
        (start_pomodoro_step st tasks sessions task RunOutcome.finished
            now).breakStarted = some BreakKind.long
          ↔ (st.current_pomodoros + 1) % st.pomodoros_until_long_break = 0)
    ∧ breakAfter 4 = some BreakKind.long
    ∧ breakAfter 8 = some BreakKind.long
    ∧ breakAfter 12 = some BreakKind.long
    ∧ breakAfter 1 = some BreakKind.short
    ∧ breakAfter 2 = some BreakKind.short
    ∧ breakAfter 3 = some BreakKind.short
    ∧ breakAfter 5 = some BreakKind.short
    ∧ breakAfter 6 = some BreakKind.short
    ∧ breakAfter 7 = some BreakKind.short := by
  refine ⟨fun st tasks sessions task now => ?_, by decide, by decide, by decide,
    by decide, by decide, by decide, by decide, by decide, by decide⟩
  simp only [start_pomodoro_step]
  split <;> simp_all

/-- C1 as the code executes it: interrupting a pomodoro on a selected task
and answering complete appends exactly the one claimed session record, no
break is started, `current_pomodoros` increments — but the task registry
comes back unchanged, its `pomodoros_spent` still 0 rather than 1: the
source never calls `TaskManager.increment_pomodoro` (it has no call site),
so the final result differs from the registry the claim requires. -/
theorem pomodoro_interrupt_complete_code_eval :
    (start_pomodoro_step initTimer [exTask] [] (some exTask)
        RunOutcome.interruptComplete 0).sessions
      = [{ type := "pomodoro", task := "Write report", duration := 25 * 60,
           completed := true, timestamp := 0 }]
    ∧ (start_pomodoro_step initTimer [exTask] [] (some exTask)
        RunOutcome.interruptComplete 0).breakStarted = none
    ∧ (start_pomodoro_step initTimer [exTask] [] (some exTask)
        RunOutcome.interruptComplete 0).timer.current_pomodoros = 1
    ∧ (start_pomodoro_step initTimer [exTask] [] (some exTask)
        RunOutcome.interruptComplete 0).tasks = [exTask]
    ∧ exTask.pomodoros_spent = 0
    ∧ (start_pomodoro_step initTimer [exTask] [] (some exTask)
        RunOutcome.interruptComplete 0).tasks
        ≠ increment_pomodoro [exTask] exTask := by
  refine ⟨rfl, rfl, rfl, rfl, rfl, by decide⟩

/-- C9: `get_task_stats` is total; on an empty list the completion rate is
0 (the `total > 0` guard keeps the division unreached), and on a non-empty
list it is the completed count over the total count times 100. -/
theorem task_stats_rate_spec :
    ∀ tasks : List Task,
      (tasks = [] → (get_task_stats tasks).completion_rate = 0)
      ∧ (tasks ≠ [] →
          (get_task_stats tasks).completion_rate
            = ((get_completed_tasks tasks).length : ℚ) / (tasks.length : ℚ)
                * 100) := by
  intro tasks
  constructor
  · intro h
    subst h
    rfl
  · intro h
    have hlen : 0 < tasks.length := List.length_pos.mpr h
    simp [get_task_stats, hlen]

/-- Witness for C9: the empty registry and a one-task registry. -/
theorem task_stats_rate_witness :
    (get_task_stats []).completion_rate = 0
    ∧ (get_task_stats [exTask]).completion_rate
        = ((get_completed_tasks [exTask]).length : ℚ)
            / (([exTask] : List Task).length : ℚ) * 100 :=
  ⟨(task_stats_rate_spec []).1 rfl,
   (task_stats_rate_spec [exTask]).2 (List.cons_ne_nil _ _)⟩

/-- If no stored task has the argument's id, `increment_pomodoro` returns
the list unchanged. -/
theorem increment_pomodoro_of_not_mem (task : Task) :
    ∀ tasks : List Task, (∀ t ∈ tasks, t.id ≠ task.id) →
      increment_pomodoro tasks task = tasks := by
  intro tasks
  induction tasks with
  | nil => intro _; rfl
  | cons t rest ih =>
    intro h
    have ht : t.id ≠ task.id := h t (List.mem_cons_self t rest)
    simp only [increment_pomodoro, if_neg ht]
    rw [ih (fun u hu => h u (List.mem_cons_of_mem t hu))]

/-- The first task with the argument's id gets the increment; tasks before
it (all with different ids) and after it are returned as they were. -/
theorem increment_pomodoro_first (task t : Task) (post : List Task) :
    ∀ pre : List Task, (∀ u ∈ pre, u.id ≠ task.id) → t.id = task.id →
      increment_pomodoro (pre ++ t :: post) task
        = pre ++ { t with pomodoros_spent := t.pomodoros_spent + 1 } :: post := by
  intro pre
  induction pre with
  | nil =>
    intro _ ht
    simp only [List.nil_append, increment_pomodoro, if_pos ht]
  | cons u us ih =>
    intro h ht
    have hu : u.id ≠ task.id := h u (List.mem_cons_self u us)
    simp only [List.cons_append, increment_pomodoro, if_neg hu]
    exact congrArg (u :: ·) (ih (fun v hv => h v (List.mem_cons_of_mem u hv)) ht)

/-- C10: `increment_pomodoro` modifies at most one stored task — the first
one in list order whose id matches gets `pomodoros_spent + 1` with all its
other fields and all other tasks unchanged, and an id with no match leaves
the whole list unchanged (so with duplicate ids only the first duplicate is
ever incremented). -/
theorem increment_pomodoro_frame :
    ∀ (tasks : List Task) (task : Task),
      ((∀ t ∈ tasks, t.id ≠ task.id) → increment_pomodoro tasks task = tasks)
      ∧ (∀ (pre : List Task) (t : Task) (post : List Task),
          tasks = pre ++ t :: post →
          (∀ u ∈ pre, u.id ≠ task.id) →
          t.id = task.id →
          increment_pomodoro tasks task
            = pre ++ { t with pomodoros_spent := t.pomodoros_spent + 1 }
                :: post) := by
  intro tasks task
  constructor
  · exact increment_pomodoro_of_not_mem task tasks
  · intro pre t post hsplit hpre ht
    subst hsplit
    exact increment_pomodoro_first task t post pre hpre ht

/-- Witness for C10: a registry without the id leaves everything in place;
a registry holding two tasks that share id 2 increments only the first. -/
theorem increment_pomodoro_frame_witness :
    increment_pomodoro [exTask] exTask2 = [exTask]
    ∧ increment_pomodoro [exTask2, { exTask2 with name := "dup" }] exTask2
        = [{ exTask2 with pomodoros_spent := 6 }, { exTask2 with name := "dup" }] :=
  ⟨(increment_pomodoro_frame [exTask] exTask2).1 (by decide),
   (increment_pomodoro_frame [exTask2, { exTask2 with name := "dup" }] exTask2).2
      [] exTask2 [{ exTask2 with name := "dup" }] rfl (by simp) rfl⟩

/-- Replaying adds appends ids counting up from one past the starting
length: the id of each new task is the length of the list it joins, plus
one. -/
theorem addAll_map_id (adds : List (String × String × Int)) :
    ∀ tasks : List Task,
      (addAll tasks adds).map Task.id
        = tasks.map Task.id ++ List.range' (tasks.length + 1) adds.length := by
  induction adds with
  | nil => intro tasks; simp [addAll]
  | cons a l ih =>
    intro tasks
    have step : addAll tasks (a :: l)
        = addAll (tasks ++ [(add_task tasks a.1 a.2.1 a.2.2).1]) l := rfl
    rw [step, ih]
    simp [add_task, List.range'_succ, List.append_assoc]

/-- C5 (amended): `add_task` on a registry of `n` tasks assigns id `n + 1`;
over any deletion-free history starting from an empty registry the ids are
exactly `1, 2, …, n`, sequential and pairwise distinct.  (After deletions
ids can be reused — see the counterexample.) -/
theorem task_id_spec :
    (∀ (tasks : List Task) (nm pr : String) (now : Int),
        (add_task tasks nm pr now).1.id = tasks.length + 1)
    ∧ (∀ adds : List (String × String × Int),
        (addAll [] adds).map Task.id = List.range' 1 adds.length)
    ∧ (∀ adds : List (String × String × Int),
        ((addAll [] adds).map Task.id).Nodup) := by
  refine ⟨fun _ _ _ _ => rfl, fun adds => ?_, fun adds => ?_⟩
  · simpa using addAll_map_id adds []
  · have h : (addAll [] adds).map Task.id = List.range' 1 adds.length := by
      simpa using addAll_map_id adds []
    rw [h]
    exact List.nodup_range' 1 adds.length

/-- Counterexample to C5 as stated: after add "a", add "b", delete position
0, add "c", the stored ids are `[2, 2]` — the id 2 freed by the deletion is
reassigned, so ids are neither unique nor never-reused. -/
theorem task_id_reuse_counterexample :
    reuseHistory.map Task.id = [2, 2] ∧ ¬ (reuseHistory.map Task.id).Nodup := by
  constructor
  · rfl
  · decide

/-- Unfolding of the spec-side fold on a cons; the condition it tests is
definitionally the filter the code applies. -/
theorem specFocusSeconds_cons (s : SessionRec) (rest : List SessionRec) :
    specFocusSeconds (s :: rest)
      = if completedPomodoro s then s.duration + specFocusSeconds rest
        else specFocusSeconds rest := rfl

/-- The filtered-map-sum the code computes equals the spec-side fold over
exactly the completed pomodoro records. -/
theorem focus_seconds_eq (sessions : List SessionRec) :
    ((sessions.filter completedPomodoro).map (fun s => s.duration)).sum
      = specFocusSeconds sessions := by
  induction sessions with
  | nil => rfl
  | cons s rest ih =>
    rw [specFocusSeconds_cons, List.filter_cons]
    rcases hb : completedPomodoro s with _ | _
    · rw [if_neg (by simp [hb]), if_neg (by simp [hb])]
      exact ih
    · rw [if_pos rfl, if_pos rfl, List.map_cons, List.sum_cons, ih]

/-- The code's hour/minute split of a seconds total renders the same string
as the spec-side total-minutes decomposition. -/
theorem focusFmt_eq (T : Nat) :
    (if T / 3600 > 0 then
      toString (T / 3600) ++ "h " ++ toString (T % 3600 / 60) ++ "m"
     else toString (T % 3600 / 60) ++ "m") = specFocusFmt T := by
  have h1 : T / 60 / 60 = T / 3600 := by omega
  have h2 : T % 3600 / 60 = T / 60 % 60 := by omega
  simp only [specFocusFmt, h1, h2]
  rcases Nat.eq_zero_or_pos (T / 3600) with h | h
  · simp [h]
  · simp [h, Nat.pos_iff_ne_zero.mp h]

/-- C6: `get_total_focus_time` renders the sum of `duration` over exactly
the completed pomodoro records as hours and minutes, the hours segment
omitted when zero; completed pomodoros of 1500 s and 900 s give "40m", and
three of 1500 s give "1h 15m". -/
theorem total_focus_time_spec :
    (∀ sessions : List SessionRec,
        get_total_focus_time sessions = specFocusFmt (specFocusSeconds sessions))
    ∧ get_total_focus_time
        [{ type := "pomodoro", task := "Write report", duration := 1500,
           completed := true, timestamp := 0 },
         { type := "pomodoro", task := "Deep work", duration := 900,
           completed := true, timestamp := 0 }] = "40m"
    ∧ get_total_focus_time
        [{ type := "pomodoro", task := "Write report", duration := 1500,
           completed := true, timestamp := 0 },
         { type := "pomodoro", task := "Write report", duration := 1500,
           completed := true, timestamp := 0 },
         { type := "pomodoro", task := "Write report", duration := 1500,
           completed := true, timestamp := 0 }] = "1h 15m" := by
  refine ⟨fun sessions => ?_, rfl, rfl⟩
  simp only [get_total_focus_time, focus_seconds_eq]
  exact focusFmt_eq (specFocusSeconds sessions)

/-- Descending insertion is a permutation of consing. -/
theorem insertDesc_perm (x : Int) (l : List Int) : (insertDesc x l).Perm (x :: l) := by
  induction l with
  | nil => exact List.Perm.refl _
  | cons y ys ih =>
    by_cases h : y ≤ x
    · simp only [insertDesc, if_pos h]
      exact List.Perm.refl _
    · simp only [insertDesc, if_neg h]
      exact (ih.cons y).trans (List.Perm.swap x y ys)

/-- The descending sort permutes its input. -/
theorem sortDesc_perm (l : List Int) : (sortDesc l).Perm l := by
  induction l with
  | nil => exact List.Perm.refl _
  | cons x xs ih => exact (insertDesc_perm x (sortDesc xs)).trans (ih.cons x)

/-- Descending insertion preserves descending (weakly) sorted order. -/
theorem insertDesc_pairwise (x : Int) (l : List Int)
    (h : l.Pairwise (fun a b => b ≤ a)) :
    (insertDesc x l).Pairwise (fun a b => b ≤ a) := by
  induction l with
  | nil => simp [insertDesc]
  | cons y ys ih =>
    rcases List.pairwise_cons.mp h with ⟨hy, hys⟩
    by_cases hxy : y ≤ x
    · simp only [insertDesc, if_pos hxy]
      refine List.pairwise_cons.mpr ⟨?_, h⟩
      intro z hz
      rcases List.mem_cons.mp hz with rfl | hz'
      · exact hxy
      · exact le_trans (hy z hz') hxy
    · simp only [insertDesc, if_neg hxy]
      refine List.pairwise_cons.mpr ⟨?_, ih hys⟩
      intro z hz
      rcases List.mem_cons.mp ((insertDesc_perm x ys).mem_iff.mp hz) with rfl | hmem
      · exact le_of_not_le hxy
      · exact hy z hmem

/-- The descending sort is weakly descending. -/
theorem sortDesc_pairwise (l : List Int) :
    (sortDesc l).Pairwise (fun a b => b ≤ a) := by
  induction l with
  | nil => simp [sortDesc]
  | cons x xs ih => exact insertDesc_pairwise x (sortDesc xs) ih

/-- On duplicate-free input the descending sort is strictly descending. -/
theorem sortDesc_pairwise_lt (l : List Int) (hnd : l.Nodup) :
    (sortDesc l).Pairwise (fun a b => b < a) := by
  have hp := sortDesc_pairwise l
  have hnd' : (sortDesc l).Nodup := (sortDesc_perm l).nodup_iff.mpr hnd
  exact (hp.and hnd').imp fun hab => lt_of_le_of_ne hab.1 (Ne.symm hab.2)

/-- Day `d` is among the sorted unique pomodoro days exactly when some
completed pomodoro record carries it. -/
theorem mem_sortDesc_pomodoroDates (sessions : List SessionRec) (d : Int) :
    d ∈ sortDesc (pomodoroDates sessions) ↔ hasPomOn sessions d = true := by
  rw [(sortDesc_perm _).mem_iff]
  simp only [pomodoroDates, List.mem_dedup, List.mem_map, List.mem_filter,
    hasPomOn, List.any_eq_true, completedPomodoro, Bool.and_eq_true, beq_iff_eq]
  constructor
  · rintro ⟨s, ⟨hs, ht, hc⟩, hd⟩
    exact ⟨s, hs, ⟨ht, hc⟩, by simp [hd]⟩
  · rintro ⟨s, hs, ⟨ht, hc⟩, hd⟩
    exact ⟨s, ⟨hs, ht, hc⟩, by simpa using hd⟩

/-- The walk of `get_streak`: on a strictly descending list whose entries
do not exceed `current_date`, if the days `current_date, current_date - 1,
…` are present for exactly `n` steps and absent at step `n`, the loop adds
exactly `n` to its accumulator. -/
theorem streakLoop_cons (d : Int) (rest : List Int) (c : Int) (s : Nat) :
    streakLoop (d :: rest) c s
      = if d = c then streakLoop rest (c - 1) (s + 1) else s := rfl

theorem streakLoop_eq (l : List Int) :
    ∀ (c : Int) (s n : Nat),
      l.Pairwise (fun a b => b < a) →
      (∀ d ∈ l, d ≤ c) →
      (∀ i : Nat, i < n → c - (i : Int) ∈ l) →
      (c - (n : Int)) ∉ l →
      streakLoop l c s = s + n := by
  induction l with
  | nil =>
    intro c s n _ _ hall _
    have hn : n = 0 := by
      by_contra h
      exact absurd (hall 0 (Nat.pos_of_ne_zero h)) (by simp)
    simp [streakLoop, hn]
  | cons d rest ih =>
    intro c s n hp hle hall hgap
    rcases List.pairwise_cons.mp hp with ⟨hd, hrest⟩
    by_cases hdc : d = c
    · subst hdc
      obtain ⟨m, rfl⟩ : ∃ m, n = m + 1 := by
        cases n with
        | zero =>
          refine absurd ?_ hgap
          simp
        | succ m => exact ⟨m, rfl⟩
      rw [streakLoop_cons, if_pos rfl]
      rw [ih (d - 1) (s + 1) m hrest ?_ ?_ ?_]
      · omega
      · intro x hx
        have := hd x hx
        omega
      · intro i hi
        have h2 := hall (i + 1) (by omega)
        have hcast : d - ((i + 1 : Nat) : Int) = d - 1 - (i : Int) := by
          push_cast
          ring
        rw [hcast] at h2
        rcases List.mem_cons.mp h2 with he | hm
        · exact absurd he (by omega)
        · exact hm
      · intro hmem
        refine hgap ?_
        have hcast : d - ((m + 1 : Nat) : Int) = d - 1 - (m : Int) := by
          push_cast
          ring
        rw [hcast]
        exact List.mem_cons_of_mem d hmem
    · have hn : n = 0 := by
        by_contra h
        have h0 := hall 0 (Nat.pos_of_ne_zero h)
        simp only [Nat.cast_zero, sub_zero] at h0
        rcases List.mem_cons.mp h0 with he | hm
        · exact hdc he.symm
        · have h1 := hd c hm
          have h2 := hle d (List.mem_cons_self d rest)
          omega
      rw [streakLoop_cons, if_neg hdc, hn]
      exact (Nat.add_zero s).symm

/-- C3 (amended): for a log none of whose completed-pomodoro records is
dated after today — always true of logs the program produces, records being
stamped at creation — `get_streak` returns the number of consecutive
calendar days, walking backward from today, on which at least one completed
pomodoro exists, stopping at the first day with none. -/
theorem get_streak_spec :
    ∀ (sessions : List SessionRec) (today : Int) (n : Nat),
      (∀ s ∈ sessions, completedPomodoro s = true → s.timestamp ≤ today) →
      (∀ i : Nat, i < n → hasPomOn sessions (today - (i : Int)) = true) →
      hasPomOn sessions (today - (n : Int)) = false →
      get_streak sessions today = n := by
  intro sessions today n hpast hall hgap
  by_cases hs : sessions = []
  · subst hs
    have hn : n = 0 := by
      by_contra h
      have h0 := hall 0 (Nat.pos_of_ne_zero h)
      simp [hasPomOn] at h0
    simp [get_streak, hn]
  · simp only [get_streak, if_neg hs]
    by_cases hd : pomodoroDates sessions = []
    · rw [if_pos hd]
      have hn : n = 0 := by
        by_contra h
        have h0 := (mem_sortDesc_pomodoroDates sessions
          (today - ((0 : Nat) : Int))).mpr (hall 0 (Nat.pos_of_ne_zero h))
        rw [hd] at h0
        simp [sortDesc] at h0
      exact hn.symm
    · rw [if_neg hd]
      have hbound : ∀ x ∈ sortDesc (pomodoroDates sessions), x ≤ today := by
        intro x hx
        have hx' := (mem_sortDesc_pomodoroDates sessions x).mp hx
        obtain ⟨s, hsmem, hpred⟩ := List.any_eq_true.mp hx'
        simp only [Bool.and_eq_true, beq_iff_eq] at hpred
        obtain ⟨⟨ht, hc⟩, hts⟩ := hpred
        have hle := hpast s hsmem (by simp [completedPomodoro, ht, hc])
        omega
      have h := streakLoop_eq (sortDesc (pomodoroDates sessions)) today 0 n
        (sortDesc_pairwise_lt _ (List.nodup_dedup _))
        hbound
        (fun i hi => (mem_sortDesc_pomodoroDates sessions _).mpr (hall i hi))
        (fun hm => by
          have := (mem_sortDesc_pomodoroDates sessions _).mp hm
          rw [hgap] at this
          exact Bool.false_ne_true this)
      simpa using h

/-- Witness for C3: pomodoros on days 100, 99, 98 and 96 with a gap at 97,
queried on day 100, give a streak of 3. -/
theorem get_streak_spec_witness : get_streak exStreakLog 100 = 3 :=
  get_streak_spec exStreakLog 100 3 (by decide)
    (by
      intro i hi
      have h3 : i = 0 ∨ i = 1 ∨ i = 2 := by omega
      rcases h3 with rfl | rfl | rfl <;> decide)
    (by decide)

/-- Counterexample to C3 as stated (with the log and the current date both
arbitrary): a log holding a completed pomodoro dated day 101 and one dated
day 100, queried with today = 100, has a completed pomodoro today and none
yesterday — the claimed walk yields 1 — yet the code returns 0, because the
future-dated day heads the descending sort and breaks the loop at once. -/
theorem get_streak_future_counterexample :
    hasPomOn futureLog 100 = true ∧ hasPomOn futureLog 99 = false
    ∧ get_streak futureLog 100 = 0 :=
  ⟨by decide, by decide, by decide⟩

end Pomodoro
